import Mathlib

/-! Verification development for the repository Legendre-Polynomial-Normalized
(src/legendre_polynomials_normalized.py).

The source is shallowly embedded: numpy arrays of floats become lists over a
field (rationals for exact evaluation, reals where a square root is taken),
and the one in-place update in the program (integration_simpson_sampled
scales its input buffer) is modelled by explicit state passing, the function
returning the pair (value, final contents of the buffer).

Layout of the embedding, with the source lines each definition translates:
  - mapIdx!, sliceMul: the strided slice assignments fx[1:-1:2] *= 4 and
    fx[2:-1:2] *= 2 of lines 31-32;
  - integration_simpson_sampled: lines 16-33;
  - linspace: np.linspace as used on lines 51 and 78;
  - vadd, vsub, vmul, vsmul: elementwise numpy vector arithmetic;
  - p_sum_loop, gram_residual, gram_norm, gram_step: the body of the
    Gram-Schmidt loop, lines 87-98;
  - base_after_first: lines 78-85; base_upto, legendre_polynomial_normalized:
    lines 65-100;
  - legendre_polynomial_normalized_noseed: the variant program of the
    refinement claim, identical except that rows 1..count-1 are not seeded
    with sampled monomials on lines 80-81;
  - get_projection: lines 36-62, again threading the basis matrix through as
    explicit state so that absence of mutation is a statement, not a
    convention.
-/

/-- Map over a list applying a function that also receives the index of the
element, the first element receiving index i. -/
def mapIdx! {α : Type} : ℕ → (ℕ → α → α) → List α → List α
  | _, _, [] => []
  | i, f, x :: xs => f i x :: mapIdx! (i + 1) f xs

/-- Python strided slice update fx[start:stop:step] *= c (source lines 31-32):
every element whose index i satisfies start <= i < stop and
i = start (mod step) is multiplied by c; the rest are kept. -/
def sliceMul {α : Type} [Mul α] (fx : List α) (start stop step : ℕ) (c : α) : List α :=
  mapIdx! 0 (fun i x => if start ≤ i ∧ i < stop ∧ (i - start) % step = 0 then c * x else x) fx

/-- Source lines 16-33. The Python function computes h = (b - a) / N, scales
the buffer fx that the caller passed in place (fx[1:-1:2] *= 4 then
fx[2:-1:2] *= 2, the stop index -1 denoting len(fx) - 1), and returns
(h / 3) * np.sum(fx). The in-place scaling is modelled by returning the pair
(returned value, final contents of the buffer fx). -/
def integration_simpson_sampled {α : Type} [Field α] (a b : α) (fx : List α) (N : ℕ) :
    α × List α :=
  let h := (b - a) / (N : α)
  let fx1 := sliceMul fx 1 (fx.length - 1) 2 4
  let fx2 := sliceMul fx1 2 (fx1.length - 1) 2 2
  ((h / 3) * fx2.sum, fx2)

/-- np.linspace a b N: the N evenly spaced points from a to b inclusive, with
spacing (b - a) / (N - 1). -/
def linspace {α : Type} [Field α] (a b : α) (N : ℕ) : List α :=
  (List.range N).map (fun (i : ℕ) => a + (b - a) * (i : α) / ((N : α) - 1))

/-- Elementwise vector addition (numpy +). -/
def vadd {α : Type} [Field α] (u v : List α) : List α := List.zipWith (· + ·) u v

/-- Elementwise vector subtraction (numpy -). -/
def vsub {α : Type} [Field α] (u v : List α) : List α := List.zipWith (· - ·) u v

/-- Elementwise vector multiplication (numpy *). -/
def vmul {α : Type} [Field α] (u v : List α) : List α := List.zipWith (· * ·) u v

/-- Scalar times vector (numpy scalar * array). -/
def vsmul {α : Type} [Field α] (c : α) (v : List α) : List α := v.map (fun x => c * x)

/-- Source lines 89-94: the accumulation of p_sum inside the loop for degree n,
starting from np.zeros_like(wn) and adding, for k = 0 .. n-1, the vector
(integral of wn * ek) * ek, where ek is row k of the current matrix. Only the
value component of the integration is used: the scaled buffer is the fresh
temporary array wn * ek, which numpy allocates anew, so no mutation escapes. -/
noncomputable def p_sum_loop (a b : ℝ) (N : ℕ) (BASE : List (List ℝ)) (wn : List ℝ) (n : ℕ) :
    List ℝ :=
  (List.range n).foldl
    (fun p_sum k =>
      vadd p_sum
        (vsmul (integration_simpson_sampled a b (vmul wn (BASE.getD k [])) N).1 (BASE.getD k [])))
    (wn.map (fun _ => 0))

/-- Source lines 88-96: wn = np.power(xx, n) followed by wn -= p_sum. -/
noncomputable def gram_residual (a b : ℝ) (N : ℕ) (xx : List ℝ) (BASE : List (List ℝ)) (n : ℕ) :
    List ℝ :=
  vsub (xx.map (· ^ n)) (p_sum_loop a b N BASE (xx.map (· ^ n)) n)

/-- Source line 97: norm = integration_simpson_sampled(a, b, np.power(wn, 2), N),
evaluated on the residual vector after orthogonalization. np.power(wn, 2) is a
fresh temporary, so the in-place scaling inside the integration stays local. -/
noncomputable def gram_norm (a b : ℝ) (N : ℕ) (xx : List ℝ) (BASE : List (List ℝ)) (n : ℕ) : ℝ :=
  (integration_simpson_sampled a b ((gram_residual a b N xx BASE n).map (· ^ 2)) N).1

/-- Source lines 87-98, one iteration of the outer loop: compute the residual
for degree n and store BASE[n, :] = wn / np.sqrt(norm). -/
noncomputable def gram_step (a b : ℝ) (N : ℕ) (xx : List ℝ) (BASE : List (List ℝ)) (n : ℕ) :
    List (List ℝ) :=
  BASE.set n ((gram_residual a b N xx BASE n).map (· / Real.sqrt (gram_norm a b N xx BASE n)))

/-- Source lines 78-85: the matrix seeded with the sampled monomials
np.power(xx, n) for n = 0 .. count-1 (lines 79-81), with row 0 then replaced
by np.ones_like(xx) / np.sqrt(norm_first_poly) where norm_first_poly is the
integral of np.ones_like(xx) (lines 83-85). -/
noncomputable def base_after_first (count N : ℕ) (a b : ℝ) : List (List ℝ) :=
  let xx := linspace a b N
  ((List.range count).map (fun n => xx.map (· ^ n))).set 0
    (xx.map (fun _ =>
      1 / Real.sqrt (integration_simpson_sampled a b (xx.map (fun _ => (1:ℝ))) N).1))

/-- State of the matrix after the outer loop of lines 87-98 has processed
degrees 1 .. m (an initial segment of the full loop, which runs degrees
1 .. count-1). -/
noncomputable def base_upto (count N : ℕ) (a b : ℝ) (m : ℕ) : List (List ℝ) :=
  (List.range' 1 m).foldl (gram_step a b N (linspace a b N)) (base_after_first count N a b)

/-- Source lines 65-100: legendre_polynomial_normalized(number_functions, N, a, b),
the full Gram-Schmidt construction; the outer loop runs for
n in range(1, number_functions). -/
noncomputable def legendre_polynomial_normalized (number_functions N : ℕ) (a b : ℝ) :
    List (List ℝ) :=
  base_upto number_functions N a b (number_functions - 1)

/-- Variant program of the refinement claim: identical to
legendre_polynomial_normalized except that the seeding loop of lines 80-81
stores the sampled monomial only into row 0, leaving rows 1 .. count-1 as the
zero rows of np.zeros((count, N)) from line 79. -/
noncomputable def legendre_polynomial_normalized_noseed (number_functions N : ℕ) (a b : ℝ) :
    List (List ℝ) :=
  let xx := linspace a b N
  let BASE := ((List.range number_functions).map (fun _ => xx.map (fun _ => (0:ℝ)))).set 0
    (xx.map (· ^ 0))
  let BASE1 := BASE.set 0
    (xx.map (fun _ =>
      1 / Real.sqrt (integration_simpson_sampled a b (xx.map (fun _ => (1:ℝ))) N).1))
  (List.range' 1 (number_functions - 1)).foldl (gram_step a b N xx) BASE1

/-- Source lines 36-62: get_projection(BASE, f, a, b). N = BASE.shape[1] is the
row length, xx the reconstructed grid, fx the sampled target, and the loop adds
(integral of fx * ek) * ek to an accumulator started at np.zeros_like(xx). The
basis matrix is threaded through the loop as explicit state (second component):
the loop body only reads BASE[k, :], and the buffer scaled in place by the
integration is the fresh temporary fx * ek, so the final state of the basis is
whatever the fold leaves in the second component. -/
noncomputable def get_projection (BASE : List (List ℝ)) (f : ℝ → ℝ) (a b : ℝ) :
    List ℝ × List (List ℝ) :=
  let N := (BASE.getD 0 []).length
  let xx := linspace a b N
  let fx := xx.map f
  (List.range BASE.length).foldl
    (fun st k =>
      let ek := st.2.getD k []
      (vadd st.1 (vsmul (integration_simpson_sampled a b (vmul fx ek) N).1 ek), st.2))
    (xx.map (fun _ => 0), BASE)

/-- C1: the repository claim says the integral estimate is (h/3) times the
Simpson-weighted sum with h = (b - a) / (N - 1). The code computes
h = (b - a) / N instead (line 30). On the interval [0, 1] with N = 5 and the
squares of the five grid points as samples, the code returns 4/15, while the
claimed formula with h = (1 - 0) / (5 - 1) = 1/4 gives 1/3, and these differ. -/
theorem integration_simpson_h_mismatch :
    (integration_simpson_sampled (0:ℚ) 1 ((linspace (0:ℚ) 1 5).map (· ^ 2)) 5).1 = 4/15 ∧
    ((1:ℚ) - 0) / (5 - 1) / 3 *
      (1 * (0:ℚ)^2 + 4 * (1/4:ℚ)^2 + 2 * (1/2:ℚ)^2 + 4 * (3/4:ℚ)^2 + 1 * (1:ℚ)^2) = 1/3 ∧
    (4:ℚ)/15 ≠ 1/3 := by
  refine ⟨?_, by norm_num, by norm_num⟩
  norm_num [integration_simpson_sampled, sliceMul, mapIdx!, linspace,
    show List.range 5 = [0,1,2,3,4] from rfl]

/-- C2: integrating f(x) = x^2 over [0, 1] sampled at the N = 5 grid points is
claimed to return 1/3 to within 1e-9. The code returns 4/15 exactly, which is
off by 1/15, far outside the tolerance. -/
theorem integration_simpson_xsq_not_third :
    (integration_simpson_sampled (0:ℚ) 1 ((linspace (0:ℚ) 1 5).map (· ^ 2)) 5).1 = 4/15 ∧
    ¬ |(integration_simpson_sampled (0:ℚ) 1 ((linspace (0:ℚ) 1 5).map (· ^ 2)) 5).1 - 1/3| ≤
        1/1000000000 := by
  have h : (integration_simpson_sampled (0:ℚ) 1 ((linspace (0:ℚ) 1 5).map (· ^ 2)) 5).1
      = 4/15 := by
    norm_num [integration_simpson_sampled, sliceMul, mapIdx!, linspace,
      show List.range 5 = [0,1,2,3,4] from rfl]
  refine ⟨h, ?_⟩
  rw [h]
  rw [abs_le]
  norm_num

/-- C3: the claim says the integration leaves the sampled-values buffer of the
caller unchanged. The code scales it in place: on the all-ones buffer of
length 5 the buffer ends as the weight vector [1, 4, 2, 4, 1]. -/
theorem integration_simpson_mutates_input :
    (integration_simpson_sampled (0:ℚ) 1 [1,1,1,1,1] 5).2 = [1,4,2,4,1] ∧
    (integration_simpson_sampled (0:ℚ) 1 [1,1,1,1,1] 5).2 ≠ [1,1,1,1,1] := by
  have h : (integration_simpson_sampled (0:ℚ) 1 [1,1,1,1,1] 5).2 = [1,4,2,4,1] := by
    norm_num [integration_simpson_sampled, sliceMul, mapIdx!]
  exact ⟨h, by rw [h]; simp⟩

/-- C8: the claim says a call with N < 3, or with the parity precondition
violated, is rejected at entry with an invalid-argument error. The code
performs no check at all: with N = 2 (below 3, and an odd number of
sub-intervals) it silently completes the computation and returns the numeric
value 1/6 together with the untouched two-point buffer. -/
theorem integration_simpson_no_argument_check :
    integration_simpson_sampled (0:ℚ) 1 [0, 1] 2 = (1/6, [0, 1]) := by
  norm_num [integration_simpson_sampled, sliceMul, mapIdx!, Prod.ext_iff]

/-- C4: the claim says row 0 of the basis is the constant vector with entries
1 / sqrt(b - a). Because the quadrature divides by N instead of N - 1, the
self-integral of the all-ones vector over [0, 1] with N = 3 is 2/3 rather than
b - a = 1, so every entry of row 0 is 1 / sqrt(2/3), which differs from
1 / sqrt(1 - 0) = 1. -/
theorem legendre_row0_not_inv_sqrt_length :
    legendre_polynomial_normalized 1 3 0 1 =
      [[1 / Real.sqrt (2/3), 1 / Real.sqrt (2/3), 1 / Real.sqrt (2/3)]] ∧
    (1:ℝ) / Real.sqrt (2/3) ≠ 1 / Real.sqrt (1 - 0) := by
  have hx : linspace (0:ℝ) 1 3 = [0, 1/2, 1] := by
    norm_num [linspace, show List.range 3 = [0,1,2] from rfl]
  have hn : (integration_simpson_sampled (0:ℝ) 1 [1,1,1] 3).1 = 2/3 := by
    norm_num [integration_simpson_sampled, sliceMul, mapIdx!]
  constructor
  · simp only [legendre_polynomial_normalized, base_upto, base_after_first, hx,
      show (1:ℕ) - 1 = 0 from rfl, show List.range' 1 0 = [] from rfl,
      show List.range 1 = [0] from rfl, List.foldl_nil, List.map_cons, List.map_nil]
    norm_num [hn]
  · have h0 : (0:ℝ) < Real.sqrt (2/3) := Real.sqrt_pos.mpr (by norm_num)
    have h1 : Real.sqrt (2/3) < 1 := by
      rw [show (1:ℝ) = Real.sqrt 1 from Real.sqrt_one.symm]
      exact Real.sqrt_lt_sqrt (by norm_num) (by norm_num)
    have h2 : 1 < 1 / Real.sqrt (2/3) := one_lt_one_div h0 h1
    rw [show (1:ℝ) - 0 = 1 from by norm_num, Real.sqrt_one]
    intro h
    rw [h] at h2
    norm_num at h2

theorem length_linspace {α : Type} [Field α] (a b : α) (N : ℕ) : (linspace a b N).length = N := by
  rw [linspace, List.length_map, List.length_range]

theorem length_vadd {α : Type} [Field α] (u v : List α) :
    (vadd u v).length = min u.length v.length := by
  simp [vadd]

theorem length_vsub {α : Type} [Field α] (u v : List α) :
    (vsub u v).length = min u.length v.length := by
  simp [vsub]

theorem length_vmul {α : Type} [Field α] (u v : List α) :
    (vmul u v).length = min u.length v.length := by
  simp [vmul]

theorem length_vsmul {α : Type} [Field α] (c : α) (v : List α) :
    (vsmul c v).length = v.length := by
  simp [vsmul]

theorem getD_map {α β : Type} (g : α → β) (d1 : α) (d2 : β) (v : List α) (i : ℕ)
    (hi : i < v.length) : (v.map g).getD i d2 = g (v.getD i d1) := by
  rw [List.getD_eq_getElem _ _ (by simpa using hi), List.getD_eq_getElem _ _ hi, List.getElem_map]

theorem getD_zipWith {α : Type} (f : α → α → α) (d : α) (u v : List α) (i : ℕ)
    (hu : i < u.length) (hv : i < v.length) :
    (List.zipWith f u v).getD i d = f (u.getD i d) (v.getD i d) := by
  have hz : i < (List.zipWith f u v).length := by
    rw [List.length_zipWith]
    exact lt_min hu hv
  rw [List.getD_eq_getElem _ _ hz, List.getD_eq_getElem _ _ hu, List.getD_eq_getElem _ _ hv,
    List.getElem_zipWith]

theorem getD_set_ne {α : Type} (l : List α) (d x : α) (n m : ℕ) (h : n ≠ m) :
    (l.set n x).getD m d = l.getD m d := by
  simp [List.getD_eq_getElem?_getD, List.getElem?_set, h]

theorem getD_set_self {α : Type} (l : List α) (d x : α) (n : ℕ) (h : n < l.length) :
    (l.set n x).getD n d = x := by
  rw [List.getD_eq_getElem _ _ (by simpa using h)]
  exact List.getElem_set_self (by simpa using h)

theorem list_ext_getD {α : Type} (d : α) (u v : List α) (hlen : u.length = v.length)
    (h : ∀ i, i < u.length → u.getD i d = v.getD i d) : u = v := by
  apply List.ext_getElem hlen
  intro n h1 h2
  have h3 := h n h1
  rwa [List.getD_eq_getElem _ _ h1, List.getD_eq_getElem _ _ h2] at h3

theorem getD_range_map {β : Type} (f : ℕ → β) (d : β) (N i : ℕ) (hi : i < N) :
    ((List.range N).map f).getD i d = f i := by
  rw [getD_map f 0 d _ i (by simpa using hi)]
  congr 1
  rw [List.getD_eq_getElem _ _ (by simpa using hi), List.getElem_range]

theorem rows_len_getD (B : List (List ℝ)) (N : ℕ) (h : ∀ r ∈ B, r.length = N) (k : ℕ)
    (hk : k < B.length) : (B.getD k []).length = N := by
  rw [List.getD_eq_getElem _ _ hk]
  exact h _ (List.getElem_mem hk)

theorem p_sum_loop_succ (a b : ℝ) (N : ℕ) (B : List (List ℝ)) (wn : List ℝ) (m : ℕ) :
    p_sum_loop a b N B wn (m + 1) =
      vadd (p_sum_loop a b N B wn m)
        (vsmul (integration_simpson_sampled a b (vmul wn (B.getD m [])) N).1 (B.getD m [])) := by
  simp [p_sum_loop, List.range_succ]

theorem p_sum_loop_length (a b : ℝ) (N : ℕ) (B : List (List ℝ)) (wn : List ℝ)
    (hw : wn.length = N) :
    ∀ n, (∀ k, k < n → (B.getD k []).length = N) → (p_sum_loop a b N B wn n).length = N := by
  intro n
  induction n with
  | zero => intro _; simp [p_sum_loop, hw]
  | succ m ih =>
    intro hrows
    rw [p_sum_loop_succ, length_vadd, length_vsmul, ih (fun k hk => hrows k (by omega)),
      hrows m (by omega)]
    simp

theorem p_sum_loop_getD (a b : ℝ) (N : ℕ) (B : List (List ℝ)) (wn : List ℝ)
    (hw : wn.length = N) :
    ∀ n, (∀ k, k < n → (B.getD k []).length = N) → ∀ i, i < N →
      (p_sum_loop a b N B wn n).getD i 0 =
        ∑ k ∈ Finset.range n,
          (integration_simpson_sampled a b (vmul wn (B.getD k [])) N).1 *
            (B.getD k []).getD i 0 := by
  intro n
  induction n with
  | zero =>
    intro _ i hi
    simp only [p_sum_loop, List.range_zero, List.foldl_nil, Finset.range_zero, Finset.sum_empty]
    rw [getD_map (fun _ => (0:ℝ)) 0 0 wn i (by omega)]
  | succ m ih =>
    intro hrows i hi
    have hm : ∀ k, k < m → (B.getD k []).length = N := fun k hk => hrows k (by omega)
    have hrm : (B.getD m []).length = N := hrows m (by omega)
    rw [p_sum_loop_succ]
    rw [show vadd (p_sum_loop a b N B wn m)
        (vsmul (integration_simpson_sampled a b (vmul wn (B.getD m [])) N).1 (B.getD m [])) =
      List.zipWith (· + ·) (p_sum_loop a b N B wn m)
        (vsmul (integration_simpson_sampled a b (vmul wn (B.getD m [])) N).1 (B.getD m []))
      from rfl]
    rw [getD_zipWith (· + ·) 0 _ _ i
      (by rw [p_sum_loop_length a b N B wn hw m hm]; exact hi)
      (by rw [length_vsmul, hrm]; exact hi)]
    rw [ih hm i hi]
    rw [show vsmul (integration_simpson_sampled a b (vmul wn (B.getD m [])) N).1 (B.getD m []) =
      (B.getD m []).map
        (fun x => (integration_simpson_sampled a b (vmul wn (B.getD m [])) N).1 * x) from rfl]
    rw [getD_map _ 0 0 _ i (by rw [hrm]; exact hi), Finset.sum_range_succ]

theorem gram_residual_length (a b : ℝ) (N : ℕ) (xx : List ℝ) (B : List (List ℝ)) (n : ℕ)
    (hx : xx.length = N) (hrows : ∀ k, k < n → (B.getD k []).length = N) :
    (gram_residual a b N xx B n).length = N := by
  rw [gram_residual, length_vsub, List.length_map, hx,
    p_sum_loop_length a b N B _ (by rw [List.length_map, hx]) n hrows]
  simp

theorem gram_residual_getD (a b : ℝ) (N : ℕ) (xx : List ℝ) (B : List (List ℝ)) (n : ℕ)
    (hx : xx.length = N) (hrows : ∀ k, k < n → (B.getD k []).length = N) (i : ℕ) (hi : i < N) :
    (gram_residual a b N xx B n).getD i 0 =
      (xx.getD i 0) ^ n -
        ∑ k ∈ Finset.range n,
          (integration_simpson_sampled a b (vmul (xx.map (· ^ n)) (B.getD k [])) N).1 *
            (B.getD k []).getD i 0 := by
  rw [gram_residual,
    show vsub (xx.map (· ^ n)) (p_sum_loop a b N B (xx.map (· ^ n)) n) =
      List.zipWith (· - ·) (xx.map (· ^ n)) (p_sum_loop a b N B (xx.map (· ^ n)) n) from rfl]
  rw [getD_zipWith (· - ·) 0 _ _ i (by rw [List.length_map, hx]; exact hi)
    (by rw [p_sum_loop_length a b N B _ (by rw [List.length_map, hx]) n hrows]; exact hi)]
  rw [getD_map _ 0 0 xx i (by rw [hx]; exact hi),
    p_sum_loop_getD a b N B _ (by rw [List.length_map, hx]) n hrows i hi]

/-- Property stated by the basis claim for row n of a matrix B built over
[a, b] with resolution N: the row equals w divided elementwise by the square
root of the integral of w squared, where w is the sampled monomial of degree n
minus the sum, over every earlier row k < n, of (integral of the monomial
times row k) times row k. -/
def RowFormula (a b : ℝ) (N : ℕ) (B : List (List ℝ)) (n : ℕ) : Prop :=
  let w : List ℝ := (List.range N).map (fun i =>
    ((linspace a b N).getD i 0) ^ n -
      ∑ k ∈ Finset.range n,
        (integration_simpson_sampled a b
            (vmul ((linspace a b N).map (· ^ n)) (B.getD k [])) N).1 *
          (B.getD k []).getD i 0)
  B.getD n [] =
    w.map (fun y => y / Real.sqrt ((integration_simpson_sampled a b (w.map (· ^ 2)) N).1))

theorem wlist_congr (a b : ℝ) (N : ℕ) (B C : List (List ℝ)) (j : ℕ)
    (h : ∀ k, k < j → B.getD k [] = C.getD k []) :
    (List.range N).map (fun i =>
        ((linspace a b N).getD i 0) ^ j -
          ∑ k ∈ Finset.range j,
            (integration_simpson_sampled a b
                (vmul ((linspace a b N).map (· ^ j)) (B.getD k [])) N).1 *
              (B.getD k []).getD i 0) =
      (List.range N).map (fun i =>
        ((linspace a b N).getD i 0) ^ j -
          ∑ k ∈ Finset.range j,
            (integration_simpson_sampled a b
                (vmul ((linspace a b N).map (· ^ j)) (C.getD k [])) N).1 *
              (C.getD k []).getD i 0) := by
  apply List.map_congr_left
  intro i _
  congr 1
  apply Finset.sum_congr rfl
  intro k hk
  rw [h k (Finset.mem_range.mp hk)]

theorem RowFormula_congr (a b : ℝ) (N : ℕ) (B C : List (List ℝ)) (j : ℕ)
    (hj : B.getD j [] = C.getD j []) (h : ∀ k, k < j → B.getD k [] = C.getD k []) :
    RowFormula a b N B j → RowFormula a b N C j := by
  intro hB
  simp only [RowFormula] at hB ⊢
  rw [← hj, hB, wlist_congr a b N B C j h]

theorem gram_residual_eq_wlist (a b : ℝ) (N : ℕ) (B : List (List ℝ)) (n : ℕ)
    (hrows : ∀ k, k < n → (B.getD k []).length = N) :
    gram_residual a b N (linspace a b N) B n =
      (List.range N).map (fun i =>
        ((linspace a b N).getD i 0) ^ n -
          ∑ k ∈ Finset.range n,
            (integration_simpson_sampled a b
                (vmul ((linspace a b N).map (· ^ n)) (B.getD k [])) N).1 *
              (B.getD k []).getD i 0) := by
  have hlen : (gram_residual a b N (linspace a b N) B n).length = N :=
    gram_residual_length a b N _ B n (length_linspace a b N) hrows
  apply list_ext_getD 0
  · rw [hlen, List.length_map, List.length_range]
  · intro i hi
    rw [hlen] at hi
    rw [gram_residual_getD a b N _ B n (length_linspace a b N) hrows i hi,
      getD_range_map _ 0 N i hi]

theorem gram_step_sets_formula (a b : ℝ) (N : ℕ) (B : List (List ℝ)) (n : ℕ)
    (hn : n < B.length) (hrows : ∀ k, k < n → (B.getD k []).length = N) :
    RowFormula a b N (gram_step a b N (linspace a b N) B n) n := by
  have hkeep : ∀ k, k < n →
      (gram_step a b N (linspace a b N) B n).getD k [] = B.getD k [] := by
    intro k hk
    simp only [gram_step]
    exact getD_set_ne _ _ _ _ _ (by omega)
  simp only [RowFormula]
  rw [wlist_congr a b N _ B n hkeep]
  have hset : (gram_step a b N (linspace a b N) B n).getD n [] =
      (gram_residual a b N (linspace a b N) B n).map
        (· / Real.sqrt (gram_norm a b N (linspace a b N) B n)) := by
    simp only [gram_step]
    exact getD_set_self _ _ _ _ hn
  rw [hset, gram_norm, gram_residual_eq_wlist a b N B n hrows]

theorem gram_step_rows (a b : ℝ) (N : ℕ) (B : List (List ℝ)) (n : ℕ)
    (hn : n < B.length) (h : ∀ r ∈ B, r.length = N) :
    ∀ r ∈ gram_step a b N (linspace a b N) B n, r.length = N := by
  intro r hr
  simp only [gram_step] at hr
  rcases List.mem_or_eq_of_mem_set hr with h1 | h1
  · exact h r h1
  · rw [h1, List.length_map,
      gram_residual_length a b N _ B n (length_linspace a b N)
        (fun k hk => rows_len_getD B N h k (by omega))]

theorem fold_gram_length (a b : ℝ) (N : ℕ) (xx : List ℝ) :
    ∀ (l : List ℕ) (B : List (List ℝ)),
      (l.foldl (gram_step a b N xx) B).length = B.length := by
  intro l
  induction l with
  | nil => intro B; rfl
  | cons x xs ih =>
    intro B
    rw [List.foldl_cons, ih]
    simp [gram_step]

theorem fold_gram_stable (a b : ℝ) (N : ℕ) (xx : List ℝ) :
    ∀ (len s : ℕ) (B : List (List ℝ)) (i : ℕ), i < s →
      ((List.range' s len).foldl (gram_step a b N xx) B).getD i [] = B.getD i [] := by
  intro len
  induction len with
  | zero => intro s B i _; rfl
  | succ m ih =>
    intro s B i hi
    rw [List.range'_succ, List.foldl_cons, ih (s + 1) _ i (by omega)]
    simp only [gram_step]
    exact getD_set_ne _ _ _ _ _ (by omega)

theorem fold_gram_rows (a b : ℝ) (N : ℕ) :
    ∀ (l : List ℕ) (B : List (List ℝ)), (∀ j ∈ l, j < B.length) →
      (∀ r ∈ B, r.length = N) →
      ∀ r ∈ l.foldl (gram_step a b N (linspace a b N)) B, r.length = N := by
  intro l
  induction l with
  | nil => intro B _ h; simpa using h
  | cons x xs ih =>
    intro B hl h
    rw [List.foldl_cons]
    apply ih
    · intro j hj
      rw [show (gram_step a b N (linspace a b N) B x).length = B.length from by
        simp [gram_step]]
      exact hl j (List.mem_cons_of_mem x hj)
    · exact gram_step_rows a b N B x (hl x (List.mem_cons_self x xs)) h

theorem fold_gram_formula (a b : ℝ) (N count : ℕ) :
    ∀ (len s : ℕ) (B : List (List ℝ)), 1 ≤ s → s + len ≤ count → B.length = count →
      (∀ r ∈ B, r.length = N) →
      (∀ j, 1 ≤ j → j < s → RowFormula a b N B j) →
      ∀ j, 1 ≤ j → j < s + len →
        RowFormula a b N ((List.range' s len).foldl (gram_step a b N (linspace a b N)) B) j := by
  intro len
  induction len with
  | zero =>
    intro s B _ _ _ _ hsat j hj1 hj2
    exact hsat j hj1 (by omega)
  | succ m ih =>
    intro s B hs hsl hlen hrows hsat j hj1 hj2
    rw [List.range'_succ, List.foldl_cons]
    have hsB : s < B.length := by omega
    have hrowsD : ∀ k, k < s → (B.getD k []).length = N := fun k hk =>
      rows_len_getD B N hrows k (by omega)
    have hkeep : ∀ k, k < s →
        (gram_step a b N (linspace a b N) B s).getD k [] = B.getD k [] := by
      intro k hk
      simp only [gram_step]
      exact getD_set_ne _ _ _ _ _ (by omega)
    have hClen : (gram_step a b N (linspace a b N) B s).length = count := by
      simp only [gram_step, List.length_set]
      exact hlen
    have hCrows := gram_step_rows a b N B s hsB hrows
    have hCsat : ∀ j, 1 ≤ j → j < s + 1 →
        RowFormula a b N (gram_step a b N (linspace a b N) B s) j := by
      intro j hj1 hj2
      by_cases hjs : j = s
      · rw [hjs]
        exact gram_step_sets_formula a b N B s hsB hrowsD
      · have hj : j < s := by omega
        exact RowFormula_congr a b N B _ j (hkeep j hj).symm
          (fun k hk => (hkeep k (by omega)).symm) (hsat j hj1 hj)
    exact ih (s + 1) _ (by omega) (by omega) hClen hCrows hCsat j hj1 (by omega)

theorem base_after_first_length (count N : ℕ) (a b : ℝ) :
    (base_after_first count N a b).length = count := by
  simp only [base_after_first, List.length_set, List.length_map, List.length_range]

theorem base_after_first_rows (count N : ℕ) (a b : ℝ) :
    ∀ r ∈ base_after_first count N a b, r.length = N := by
  intro r hr
  simp only [base_after_first] at hr
  rcases List.mem_or_eq_of_mem_set hr with h1 | h1
  · rcases List.mem_map.mp h1 with ⟨n, _, hrn⟩
    rw [← hrn, List.length_map, length_linspace]
  · rw [h1, List.length_map, length_linspace]

/-- C5: for 1 <= n < count, row n of the returned matrix equals w divided by
the square root of the integral of w squared, where w is the sampled monomial
of degree n minus the sum over k < n of (integral of the monomial times the
finalized row k) times row k; and the matrix has count rows of length N. -/
theorem legendre_rows_follow_gram_schmidt (count N : ℕ) (a b : ℝ) (n : ℕ)
    (h1 : 1 ≤ n) (h2 : n < count) :
    (legendre_polynomial_normalized count N a b).length = count ∧
    (∀ r ∈ legendre_polynomial_normalized count N a b, r.length = N) ∧
    RowFormula a b N (legendre_polynomial_normalized count N a b) n := by
  refine ⟨?_, ?_, ?_⟩
  · simp only [legendre_polynomial_normalized, base_upto]
    rw [fold_gram_length, base_after_first_length]
  · simp only [legendre_polynomial_normalized, base_upto]
    apply fold_gram_rows a b N
    · intro j hj
      rw [base_after_first_length]
      have hj2 := List.mem_range'_1.mp hj
      omega
    · exact base_after_first_rows count N a b
  · simp only [legendre_polynomial_normalized, base_upto]
    exact fold_gram_formula a b N count (count - 1) 1 (base_after_first count N a b)
      (le_refl 1) (by omega) (base_after_first_length count N a b)
      (base_after_first_rows count N a b)
      (fun j hj1 hj2 => absurd hj1 (by omega)) n h1 (by omega)

theorem legendre_rows_follow_gram_schmidt_witness :
    1 ≤ 1 ∧ 1 < 2 ∧ RowFormula 0 1 3 (legendre_polynomial_normalized 2 3 0 1) 1 :=
  ⟨le_refl 1, by norm_num,
    (legendre_rows_follow_gram_schmidt 2 3 0 1 1 (le_refl 1) (by norm_num)).2.2⟩

theorem p_sum_loop_congr (a b : ℝ) (N : ℕ) (B C : List (List ℝ)) (wn : List ℝ) (n : ℕ)
    (h : ∀ k, k < n → B.getD k [] = C.getD k []) :
    p_sum_loop a b N B wn n = p_sum_loop a b N C wn n := by
  simp only [p_sum_loop]
  apply List.foldl_ext
  intro p k hk
  rw [h k (List.mem_range.mp hk)]

theorem gram_residual_congr (a b : ℝ) (N : ℕ) (xx : List ℝ) (B C : List (List ℝ)) (n : ℕ)
    (h : ∀ k, k < n → B.getD k [] = C.getD k []) :
    gram_residual a b N xx B n = gram_residual a b N xx C n := by
  unfold gram_residual
  rw [p_sum_loop_congr a b N B C _ n h]

theorem gram_norm_congr (a b : ℝ) (N : ℕ) (xx : List ℝ) (B C : List (List ℝ)) (n : ℕ)
    (h : ∀ k, k < n → B.getD k [] = C.getD k []) :
    gram_norm a b N xx B n = gram_norm a b N xx C n := by
  unfold gram_norm
  rw [gram_residual_congr a b N xx B C n h]

theorem fold_gram_agree (a b : ℝ) (N : ℕ) (xx : List ℝ) :
    ∀ (len s : ℕ) (B C : List (List ℝ)), B.length = C.length → s + len ≤ B.length →
      (∀ i, i < s → B.getD i [] = C.getD i []) →
      ∀ i, i < s + len →
        ((List.range' s len).foldl (gram_step a b N xx) B).getD i [] =
          ((List.range' s len).foldl (gram_step a b N xx) C).getD i [] := by
  intro len
  induction len with
  | zero => intro s B C _ _ hag i hi; exact hag i (by omega)
  | succ m ih =>
    intro s B C hlen hsl hag i hi
    rw [List.range'_succ, List.foldl_cons, List.foldl_cons]
    apply ih (s + 1) _ _ ?_ ?_ ?_ i (by omega)
    · simp only [gram_step, List.length_set]
      exact hlen
    · simp only [gram_step, List.length_set]
      omega
    · intro j hj
      by_cases hjs : j = s
      · subst hjs
        have hres := gram_residual_congr a b N xx B C j (fun k hk => hag k hk)
        have hnorm := gram_norm_congr a b N xx B C j (fun k hk => hag k hk)
        simp only [gram_step]
        rw [getD_set_self _ _ _ _ (by omega), getD_set_self _ _ _ _ (by omega), hres, hnorm]
      · have hjs2 : j < s := by omega
        simp only [gram_step]
        rw [getD_set_ne _ _ _ _ _ (by omega), getD_set_ne _ _ _ _ _ (by omega)]
        exact hag j hjs2

/-- C10: the initial seeding of rows 1 .. count-1 with sampled monomials is
dead: the variant program that skips it returns the same matrix, because every
row n >= 1 is recomputed from a freshly sampled monomial before being stored,
and the loop for row n only reads rows below n, which are already finalized. -/
theorem legendre_seed_rows_dead (count N : ℕ) (a b : ℝ) :
    legendre_polynomial_normalized_noseed count N a b =
      legendre_polynomial_normalized count N a b := by
  rcases Nat.eq_zero_or_pos count with hc | hc
  · subst hc
    rfl
  · have hlen_noseed : (legendre_polynomial_normalized_noseed count N a b).length = count := by
      simp only [legendre_polynomial_normalized_noseed]
      rw [fold_gram_length]
      simp only [List.length_set, List.length_map, List.length_range]
    have hlen_orig : (legendre_polynomial_normalized count N a b).length = count := by
      simp only [legendre_polynomial_normalized, base_upto]
      rw [fold_gram_length, base_after_first_length]
    apply list_ext_getD []
    · rw [hlen_noseed, hlen_orig]
    · intro i hi
      rw [hlen_noseed] at hi
      simp only [legendre_polynomial_normalized_noseed, legendre_polynomial_normalized,
        base_upto]
      apply fold_gram_agree a b N (linspace a b N) (count - 1) 1 _ _ ?_ ?_ ?_ i (by omega)
      · rw [List.length_set, List.length_set, List.length_map, List.length_range,
          base_after_first_length]
      · rw [List.length_set, List.length_set, List.length_map, List.length_range]
        omega
      · intro j hj
        have hj0 : j = 0 := by omega
        subst hj0
        rw [getD_set_self _ _ _ 0
          (by rw [List.length_set, List.length_map, List.length_range]; omega)]
        simp only [base_after_first]
        rw [getD_set_self _ _ _ 0 (by rw [List.length_map, List.length_range]; omega)]

theorem proj_loop_snd (a b : ℝ) (N : ℕ) (fx : List ℝ) :
    ∀ (l : List ℕ) (st : List ℝ × List (List ℝ)),
      (l.foldl
        (fun st k =>
          (vadd st.1 (vsmul (integration_simpson_sampled a b (vmul fx (st.2.getD k [])) N).1
            (st.2.getD k [])), st.2)) st).2 = st.2 := by
  intro l
  induction l with
  | nil => intro st; rfl
  | cons x xs ih =>
    intro st
    rw [List.foldl_cons]
    exact ih _

/-- C9: the projector leaves the basis matrix unchanged: the loop body only
reads rows of the basis, and the buffer that the integration scales in place is
the fresh elementwise product fx * ek, so the basis state threaded through the
loop comes out exactly as it went in. -/
theorem get_projection_preserves_base (BASE : List (List ℝ)) (f : ℝ → ℝ) (a b : ℝ) :
    (get_projection BASE f a b).2 = BASE := by
  simp only [get_projection]
  exact proj_loop_snd a b (BASE.getD 0 []).length
    ((linspace a b (BASE.getD 0 []).length).map f) (List.range BASE.length) _

theorem proj_loop_fst (a b : ℝ) (N : ℕ) (fx : List ℝ) (B : List (List ℝ))
    (hrows : ∀ k, k < B.length → (B.getD k []).length = N) :
    ∀ (m : ℕ), m ≤ B.length → ∀ (p : List ℝ), p.length = N →
      ((List.range m).foldl
          (fun st k =>
            (vadd st.1 (vsmul (integration_simpson_sampled a b (vmul fx (st.2.getD k [])) N).1
              (st.2.getD k [])), st.2)) (p, B)).1.length = N ∧
      ∀ i, i < N →
        ((List.range m).foldl
            (fun st k =>
              (vadd st.1 (vsmul (integration_simpson_sampled a b (vmul fx (st.2.getD k [])) N).1
                (st.2.getD k [])), st.2)) (p, B)).1.getD i 0 =
          p.getD i 0 + ∑ k ∈ Finset.range m,
            (integration_simpson_sampled a b (vmul fx (B.getD k [])) N).1 *
              (B.getD k []).getD i 0 := by
  intro m
  induction m with
  | zero =>
    intro _ p hp
    refine ⟨hp, fun i hi => ?_⟩
    simp
  | succ m ih =>
    intro hm p hp
    obtain ⟨hlen, hptw⟩ := ih (by omega) p hp
    have hsnd := proj_loop_snd a b N fx (List.range m) (p, B)
    have hrm : (B.getD m []).length = N := hrows m (by omega)
    rw [List.range_succ, List.foldl_append, List.foldl_cons, List.foldl_nil]
    rw [hsnd]
    constructor
    · rw [length_vadd, hlen, length_vsmul, hrm]
      simp
    · intro i hi
      rw [show vadd ((List.range m).foldl
            (fun st k =>
              (vadd st.1 (vsmul (integration_simpson_sampled a b (vmul fx (st.2.getD k [])) N).1
                (st.2.getD k [])), st.2)) (p, B)).1
            (vsmul (integration_simpson_sampled a b (vmul fx (B.getD m [])) N).1 (B.getD m [])) =
          List.zipWith (· + ·) ((List.range m).foldl
            (fun st k =>
              (vadd st.1 (vsmul (integration_simpson_sampled a b (vmul fx (st.2.getD k [])) N).1
                (st.2.getD k [])), st.2)) (p, B)).1
            (vsmul (integration_simpson_sampled a b (vmul fx (B.getD m [])) N).1 (B.getD m []))
          from rfl]
      rw [getD_zipWith (· + ·) 0 _ _ i (by rw [hlen]; exact hi)
        (by rw [length_vsmul, hrm]; exact hi)]
      rw [hptw i hi]
      rw [show vsmul (integration_simpson_sampled a b (vmul fx (B.getD m [])) N).1 (B.getD m []) =
        (B.getD m []).map
          (fun x => (integration_simpson_sampled a b (vmul fx (B.getD m [])) N).1 * x) from rfl]
      rw [getD_map _ 0 0 _ i (by rw [hrm]; exact hi), Finset.sum_range_succ, add_assoc]

/-- C6: the projection returned for a basis with rows of length N is the
length-N vector whose entry i is the sum over all rows k of (integral of the
sampled target times row k) times entry i of row k, the accumulation starting
from the all-zero vector. -/
theorem get_projection_is_coefficient_sum (BASE : List (List ℝ)) (f : ℝ → ℝ) (a b : ℝ) (N : ℕ)
    (hN : (BASE.getD 0 []).length = N) (hrows : ∀ r ∈ BASE, r.length = N) :
    (get_projection BASE f a b).1.length = N ∧
    ∀ i, i < N → (get_projection BASE f a b).1.getD i 0 =
      ∑ k ∈ Finset.range BASE.length,
        (integration_simpson_sampled a b
            (vmul ((linspace a b N).map f) (BASE.getD k [])) N).1 *
          (BASE.getD k []).getD i 0 := by
  simp only [get_projection, hN]
  have hrowsD : ∀ k, k < BASE.length → (BASE.getD k []).length = N := fun k hk =>
    rows_len_getD BASE N hrows k hk
  have hp0 : ((linspace a b N).map (fun _ => (0:ℝ))).length = N := by
    rw [List.length_map, length_linspace]
  obtain ⟨h1, h2⟩ := proj_loop_fst a b N ((linspace a b N).map f) BASE hrowsD BASE.length
    (le_refl _) ((linspace a b N).map (fun _ => 0)) hp0
  refine ⟨h1, fun i hi => ?_⟩
  rw [h2 i hi, getD_map (fun _ => (0:ℝ)) 0 0 _ i (by rw [length_linspace]; exact hi), zero_add]

theorem get_projection_is_coefficient_sum_witness :
    (([[(1:ℝ), 1, 1]] : List (List ℝ)).getD 0 []).length = 3 ∧
    (∀ r ∈ ([[(1:ℝ), 1, 1]] : List (List ℝ)), r.length = 3) ∧
    (get_projection [[(1:ℝ), 1, 1]] (fun x => x) 0 1).1.length = 3 ∧
    (get_projection [[(1:ℝ), 1, 1]] (fun x => x) 0 1).1.getD 0 0 =
      ∑ k ∈ Finset.range ([[(1:ℝ), 1, 1]] : List (List ℝ)).length,
        (integration_simpson_sampled (0:ℝ) 1
            (vmul ((linspace (0:ℝ) 1 3).map (fun x => x))
              (([[(1:ℝ), 1, 1]] : List (List ℝ)).getD k [])) 3).1 *
          (([[(1:ℝ), 1, 1]] : List (List ℝ)).getD k []).getD 0 0 :=
  ⟨by simp, by simp,
    (get_projection_is_coefficient_sum [[(1:ℝ), 1, 1]] (fun x => x) 0 1 3 (by simp)
      (by simp)).1,
    (get_projection_is_coefficient_sum [[(1:ℝ), 1, 1]] (fun x => x) 0 1 3 (by simp)
      (by simp)).2 0 (by norm_num)⟩

theorem base_upto_succ (count N : ℕ) (a b : ℝ) (m : ℕ) :
    base_upto count N a b (m + 1) =
      gram_step a b N (linspace a b N) (base_upto count N a b m) (1 + m) := by
  simp only [base_upto]
  rw [List.range'_concat, List.foldl_append, List.foldl_cons, List.foldl_nil, Nat.one_mul]

theorem c7_linspace : linspace (0:ℝ) 1 3 = [0, 1/2, 1] := by
  norm_num [linspace, show List.range 3 = [0,1,2] from rfl]

theorem c7_b0 : base_after_first 4 3 0 1 =
    [[1 / Real.sqrt (2/3), 1 / Real.sqrt (2/3), 1 / Real.sqrt (2/3)],
     [0, 1/2, 1], [0, 1/4, 1], [0, 1/8, 1]] := by
  have hn : (integration_simpson_sampled (0:ℝ) 1 [1,1,1] 3).1 = 2/3 := by
    norm_num [integration_simpson_sampled, sliceMul, mapIdx!]
  simp only [base_after_first, c7_linspace, show List.range 4 = [0,1,2,3] from rfl,
    List.map_cons, List.map_nil]
  norm_num [hn]

theorem c7_res1 : gram_residual 0 1 3 (linspace (0:ℝ) 1 3) (base_after_first 4 3 0 1) 1 =
    [-(1/2), 0, 1/2] := by
  rw [c7_linspace, c7_b0]
  simp [gram_residual, p_sum_loop, vadd, vsub, vmul, vsmul,
    integration_simpson_sampled, sliceMul, mapIdx!, List.getD_cons_zero, List.getD_cons_succ,
    show List.range 1 = [0] from rfl]
  have h32 : Real.sqrt 3 / Real.sqrt 2 * (Real.sqrt 3 / Real.sqrt 2) = 3 / 2 := by
    rw [div_mul_div_comm, Real.mul_self_sqrt (by norm_num), Real.mul_self_sqrt (by norm_num)]
  refine ⟨by linear_combination (1/3 : ℝ) * h32, by linear_combination (-(1/3) : ℝ) * h32,
    by linear_combination (-(1/3) : ℝ) * h32⟩

theorem c7_norm1 : gram_norm 0 1 3 (linspace (0:ℝ) 1 3) (base_after_first 4 3 0 1) 1 = 1/18 := by
  rw [gram_norm, c7_res1]
  norm_num [integration_simpson_sampled, sliceMul, mapIdx!]

theorem c7_b1 : base_upto 4 3 0 1 1 =
    [[1 / Real.sqrt (2/3), 1 / Real.sqrt (2/3), 1 / Real.sqrt (2/3)],
     [-(1/2) / Real.sqrt (1/18), 0, (1/2) / Real.sqrt (1/18)],
     [0, 1/4, 1], [0, 1/8, 1]] := by
  have h := base_upto_succ 4 3 0 1 0
  norm_num at h
  rw [h, show base_upto 4 3 0 1 0 = base_after_first 4 3 0 1 from rfl, gram_step,
    c7_res1, c7_norm1, c7_b0]
  norm_num

theorem c7_res2 : gram_residual 0 1 3 (linspace (0:ℝ) 1 3) (base_upto 4 3 0 1 1) 2 =
    [1/6, -(1/12), 1/6] := by
  rw [c7_linspace, c7_b1]
  simp [gram_residual, p_sum_loop, vadd, vsub, vmul, vsmul,
    integration_simpson_sampled, sliceMul, mapIdx!, List.getD_cons_zero, List.getD_cons_succ,
    show List.range 2 = [0, 1] from rfl]
  have h32 : Real.sqrt 3 / Real.sqrt 2 * (Real.sqrt 3 / Real.sqrt 2) = 3 / 2 := by
    rw [div_mul_div_comm, Real.mul_self_sqrt (by norm_num), Real.mul_self_sqrt (by norm_num)]
  have h18 : Real.sqrt 18 * Real.sqrt 18 = 18 := Real.mul_self_sqrt (by norm_num)
  refine ⟨by linear_combination (1/36 : ℝ) * h18 - (2/9 : ℝ) * h32,
    by linear_combination (-(2/9) : ℝ) * h32,
    by linear_combination (-(1/36) : ℝ) * h18 - (2/9 : ℝ) * h32⟩

theorem c7_norm2 : gram_norm 0 1 3 (linspace (0:ℝ) 1 3) (base_upto 4 3 0 1 1) 2 = 1/108 := by
  rw [gram_norm, c7_res2]
  norm_num [integration_simpson_sampled, sliceMul, mapIdx!]

theorem c7_b2 : base_upto 4 3 0 1 2 =
    [[1 / Real.sqrt (2/3), 1 / Real.sqrt (2/3), 1 / Real.sqrt (2/3)],
     [-(1/2) / Real.sqrt (1/18), 0, (1/2) / Real.sqrt (1/18)],
     [(1/6) / Real.sqrt (1/108), -(1/12) / Real.sqrt (1/108), (1/6) / Real.sqrt (1/108)],
     [0, 1/8, 1]] := by
  have h := base_upto_succ 4 3 0 1 1
  norm_num at h
  rw [h, gram_step, c7_res2, c7_norm2, c7_b1]
  norm_num

theorem c7_res3 : gram_residual 0 1 3 (linspace (0:ℝ) 1 3) (base_upto 4 3 0 1 2) 3 =
    [0, 0, 0] := by
  rw [c7_linspace, c7_b2]
  simp [gram_residual, p_sum_loop, vadd, vsub, vmul, vsmul,
    integration_simpson_sampled, sliceMul, mapIdx!, List.getD_cons_zero, List.getD_cons_succ,
    show List.range 3 = [0, 1, 2] from rfl]
  have h32 : Real.sqrt 3 / Real.sqrt 2 * (Real.sqrt 3 / Real.sqrt 2) = 3 / 2 := by
    rw [div_mul_div_comm, Real.mul_self_sqrt (by norm_num), Real.mul_self_sqrt (by norm_num)]
  have h18 : Real.sqrt 18 * Real.sqrt 18 = 18 := Real.mul_self_sqrt (by norm_num)
  have h108 : Real.sqrt 108 * Real.sqrt 108 = 108 := Real.mul_self_sqrt (by norm_num)
  refine ⟨by linear_combination (-(1/432) : ℝ) * h108 + (1/36 : ℝ) * h18 - (1/6 : ℝ) * h32,
    by linear_combination (1/864 : ℝ) * h108 - (1/6 : ℝ) * h32,
    by linear_combination (-(1/432) : ℝ) * h108 - (1/36 : ℝ) * h18 - (1/6 : ℝ) * h32⟩

theorem c7_norm3 : gram_norm 0 1 3 (linspace (0:ℝ) 1 3) (base_upto 4 3 0 1 2) 3 = 0 := by
  rw [gram_norm, c7_res3]
  norm_num [integration_simpson_sampled, sliceMul, mapIdx!]

theorem c7_final_row : (legendre_polynomial_normalized 4 3 0 1).getD 3 [] = [0, 0, 0] := by
  have h : legendre_polynomial_normalized 4 3 0 1 = base_upto 4 3 0 1 3 := rfl
  have h3 := base_upto_succ 4 3 0 1 2
  norm_num at h3
  rw [h, h3, gram_step, c7_res3, c7_norm3, c7_b2]
  norm_num [Real.sqrt_zero]

/-- C7: the claim says that whenever the self-inner-product computed during
normalization of some row is zero or negative, the builder reports a
degenerate-basis error, naming the degree, and aborts. The code has no check:
with count = 4, N = 3 over [0, 1], the residual at degree 3 is exactly the
zero vector, its quadrature norm is exactly 0, and the code goes on to divide
by sqrt(0) and return a matrix anyway (numpy emits 0/0 = NaN entries in row 3
with only a runtime warning; in the real-number model the division by zero
yields the zero row), with no error of any kind reported. -/
theorem legendre_degenerate_norm_zero_no_error :
    gram_norm 0 1 3 (linspace (0:ℝ) 1 3) (base_upto 4 3 0 1 2) 3 = 0 ∧
    (legendre_polynomial_normalized 4 3 0 1).getD 3 [] = [0, 0, 0] :=
  ⟨c7_norm3, c7_final_row⟩
